import Mathlib

/-!
Shallow embedding of yuzu's `KAddressArbiter`
(`src/core/hle/kernel/k_address_arbiter.cpp`): the futex-style address
arbiter with three signal operations, two wait operations, and the
exclusive-monitor based user-memory atomics.

Modelling conventions:
* 32-bit signed cells are `Int` values normalised into `[-2^31, 2^31)`;
  every store goes through `wrap32s`, which models the
  `static_cast<u32>` store followed by the `static_cast<s32>` read.
* The exclusive monitor is an oracle: a list of `MonitorStep`s, one per
  attempt of the retry loop, giving the value `ExclusiveRead32` observes
  and whether `ExclusiveWrite32` succeeds.  An exhausted oracle models a
  retry loop that never resolved (`none`).
* The intrusive thread tree (`KThread` fields and comparator live in
  `k_thread.h`, outside the sources at hand) is modelled from the spec:
  an ordered list of `KThread` records keyed by
  `(address_arbiter_key, tie)`, where `tie` encodes the
  priority-then-FIFO tie break.
-/

namespace ArbiterModel

/-- Signed 32-bit wraparound: the composition of `static_cast<u32>` on
store with the `static_cast<s32>` on the next load. -/
def wrap32s (n : Int) : Int := (n + 2147483648) % 4294967296 - 2147483648

/-- The result codes the arbiter can surface to the syscall layer. -/
inductive ResultCode where
  | Success
  | InvalidCurrentMemory
  | InvalidState
  | TimedOut
  | TerminationRequested
deriving DecidableEq, Repr

/-- One attempt of the exclusive-monitor retry loop: the 32-bit value the
exclusive read observes, and whether the exclusive store (if attempted)
succeeds. -/
structure MonitorStep where
  readValue : Int
  storeOk : Bool
deriving DecidableEq, Repr

/-- Result of a user-memory atomic helper: the C++ `bool` return value,
the `*out` output parameter, and the value committed to the cell by a
successful exclusive store (if any). -/
structure AtomicResult where
  ok : Bool
  out : Int
  store : Option Int
deriving DecidableEq, Repr

/-- Embedding of the file-local `DecrementIfLessThan(system, out, address, value)`.
Each recursion step consumes one `MonitorStep`; `none` means the oracle
was exhausted before the retry loop resolved.  Note the faithful quirk of
the source: after a failed store the function recurses, but the frame
then still executes `*out = current_value`, so the caller receives the
OUTERMOST read, while the committed store (if any) comes from the
innermost frame. -/
def DecrementIfLessThan (value : Int) : List MonitorStep → Option AtomicResult
  | [] => none
  | s :: rest =>
    let current_value := s.readValue
    if current_value < value then
      if s.storeOk then
        some ⟨true, current_value, some (wrap32s (current_value - 1))⟩
      else
        match DecrementIfLessThan value rest with
        | none => none
        | some r => some ⟨true, current_value, r.store⟩
    else
      some ⟨true, current_value, none⟩

/-- Embedding of the file-local `UpdateIfEqual(system, out, address, value, new_value)`,
with the same oracle convention and the same `*out` quirk as
`DecrementIfLessThan`. -/
def UpdateIfEqual (value new_value : Int) : List MonitorStep → Option AtomicResult
  | [] => none
  | s :: rest =>
    let current_value := s.readValue
    if current_value = value then
      if s.storeOk then
        some ⟨true, current_value, some (wrap32s new_value)⟩
      else
        match UpdateIfEqual value new_value rest with
        | none => none
        | some r => some ⟨true, current_value, r.store⟩
    else
      some ⟨true, current_value, none⟩

/-- Embedding of the file-local `ReadFromUser`: one plain load, always
returns `true`. -/
def ReadFromUser (mem : Nat → Int) (address : Nat) : AtomicResult :=
  ⟨true, mem address, none⟩

/-- Uncontended run of `DecrementIfLessThan`: the exclusive store (if
attempted) succeeds on the first try.  `decrementOnce_spec` checks this
against the oracle embedding on the singleton successful trace. -/
def decrementOnce (mem : Nat → Int) (address : Nat) (value : Int) : AtomicResult :=
  ⟨true, mem address, if mem address < value then some (wrap32s (mem address - 1)) else none⟩

/-- Uncontended run of `UpdateIfEqual`. -/
def updateOnce (mem : Nat → Int) (address : Nat) (value new_value : Int) : AtomicResult :=
  ⟨true, mem address, if mem address = value then some (wrap32s new_value) else none⟩

theorem decrementOnce_spec (mem : Nat → Int) (address : Nat) (value : Int) :
    DecrementIfLessThan value [⟨mem address, true⟩] = some (decrementOnce mem address value) := by
  unfold DecrementIfLessThan decrementOnce
  by_cases h : mem address < value <;> simp [h]

theorem updateOnce_spec (mem : Nat → Int) (address : Nat) (value new_value : Int) :
    UpdateIfEqual value new_value [⟨mem address, true⟩] =
      some (updateOnce mem address value new_value) := by
  unfold UpdateIfEqual updateOnce
  by_cases h : mem address = value <;> simp [h]

/-- Modelled from the spec: the `KThread` fields the arbiter touches.
The thread class itself lives in `k_thread.h`, outside the sources at
hand; per the spec the tree key is `(address_arbiter_key, tie)` with
`tie` a priority-then-FIFO tie break, `waitingForArbiter` models
`IsWaitingForAddressArbiter()` (set by `SetAddressArbiter`, cleared by
`ClearAddressArbiter`), `waitResult` the result installed by
`SetSyncedObject`, `runnable` the scheduling state flipped by `Wakeup`,
and `terminationRequested` models `IsTerminationRequested()`. -/
structure KThread where
  tid : Nat
  tie : Nat
  arbKey : Nat
  waitingForArbiter : Bool
  waitResult : ResultCode
  runnable : Bool
  terminationRequested : Bool
deriving DecidableEq, Repr

/-- Modelled from the spec: the WaitTree is an ordered multiset keyed by
`(address_arbiter_key, tie)`; we represent it as a sorted list.
`nfind_light({addr, -1})` returns the first node with key `≥ (addr, -1)`;
since every tie break is `≥ 0 > -1`, on a sorted list that is the first
node with `arbKey ≥ addr`.  The pair is (nodes before the lower bound,
nodes from the lower bound on). -/
def lowerBoundSplit (addr : Nat) (tree : List KThread) : List KThread × List KThread :=
  (tree.takeWhile (fun t => t.arbKey < addr), tree.dropWhile (fun t => t.arbKey < addr))

/-- The per-thread effect of one iteration of the wake loop:
`SetSyncedObject(nullptr, RESULT_SUCCESS)`, `Wakeup()`,
`ClearAddressArbiter()`. -/
def wakeThread (t : KThread) : KThread :=
  { t with waitResult := .Success, runnable := true, waitingForArbiter := false }

/-- The wake loop shared by the three signal operations, run on the
suffix starting at the lower bound: while the iterator is valid, the
count is not exhausted (`count <= 0 || num_waiters < count`) and the
node's key still equals `addr`, wake and erase the node.  Returns
(remaining suffix, woken threads in tree order, final `num_waiters`). -/
def wakeLoop (addr : Nat) (count : Int) :
    List KThread → Int → List KThread × List KThread × Int
  | [], num => ([], [], num)
  | t :: rest, num =>
    if (count ≤ 0 ∨ num < count) ∧ t.arbKey = addr then
      let r := wakeLoop addr count rest (num + 1)
      (r.1, wakeThread t :: r.2.1, r.2.2)
    else
      (t :: rest, [], num)

/-- Applying the committed store (if any) of an atomic helper to memory. -/
def commitStore (mem : Nat → Int) (addr : Nat) : Option Int → (Nat → Int)
  | none => mem
  | some w => fun a => if a = addr then w else mem a

/-- Outcome of a signal operation: result code, the tree afterwards, the
woken threads in wake order, and the user memory afterwards. -/
structure SignalResult where
  res : ResultCode
  tree : List KThread
  woken : List KThread
  mem : Nat → Int

/-- Embedding of `KAddressArbiter::Signal(addr, count)`. -/
def Signal (mem : Nat → Int) (tree : List KThread) (addr : Nat) (count : Int) :
    SignalResult :=
  let split := lowerBoundSplit addr tree
  let r := wakeLoop addr count split.2 0
  ⟨.Success, split.1 ++ r.1, r.2.1, mem⟩

/-- Embedding of `KAddressArbiter::SignalAndIncrementIfEqual(addr, value, count)`,
in the uncontended regime (the exclusive store succeeds on its first
attempt; see `updateOnce_spec`). -/
def SignalAndIncrementIfEqual (mem : Nat → Int) (tree : List KThread) (addr : Nat)
    (value count : Int) : SignalResult :=
  let u := updateOnce mem addr value (value + 1)
  let mem2 := commitStore mem addr u.store
  if u.ok = false then
    ⟨.InvalidCurrentMemory, tree, [], mem2⟩
  else if u.out ≠ value then
    ⟨.InvalidState, tree, [], mem2⟩
  else
    let split := lowerBoundSplit addr tree
    let r := wakeLoop addr count split.2 0
    ⟨.Success, split.1 ++ r.1, r.2.1, mem2⟩

/-- The capped waiter-counting loop inside
`SignalAndModifyByWaitingCountIfEqual`: starting from the node after the
lower bound, count same-address waiters, breaking one increment after the
running count reaches `count` (note the post-increment in
`if ((tmp_num_waiters++) >= count) break;`). -/
def tmpLoop (addr : Nat) (count : Int) : List KThread → Int → Int
  | [], tmp => tmp
  | t :: rest, tmp =>
    if t.arbKey = addr then
      if count ≤ tmp then tmp + 1 else tmpLoop addr count rest (tmp + 1)
    else tmp

/-- The `new_value` computation of
`SignalAndModifyByWaitingCountIfEqual`, on the suffix starting at the
lower bound (live `>= 7.0.0` firmware branch; the other branch is dead
code guarded by a constant-true condition). -/
def computeNewValue (addr : Nat) (value count : Int) : List KThread → Int
  | [] => value + 1
  | t :: rest =>
    if count ≤ 0 then
      if t.arbKey = addr then value - 2 else value + 1
    else
      if t.arbKey = addr then
        if tmpLoop addr count rest 0 < count then value - 1 else value
      else value + 1

/-- Embedding of
`KAddressArbiter::SignalAndModifyByWaitingCountIfEqual(addr, value, count)`
in the uncontended regime. -/
def SignalAndModifyByWaitingCountIfEqual (mem : Nat → Int) (tree : List KThread)
    (addr : Nat) (value count : Int) : SignalResult :=
  let split := lowerBoundSplit addr tree
  let new_value := computeNewValue addr value count split.2
  let u := if value ≠ new_value then updateOnce mem addr value new_value
           else ReadFromUser mem addr
  let mem2 := commitStore mem addr u.store
  if u.ok = false then
    ⟨.InvalidCurrentMemory, tree, [], mem2⟩
  else if u.out ≠ value then
    ⟨.InvalidState, tree, [], mem2⟩
  else
    let r := wakeLoop addr count split.2 0
    ⟨.Success, split.1 ++ r.1, r.2.1, mem2⟩

/-- Outcome of phase A of a wait operation: either an early return with a
result code (sleep cancelled, thread not enrolled) or enrollment in the
tree. -/
inductive WaitOutcome where
  | early (r : ResultCode)
  | enrolled
deriving DecidableEq, Repr

/-- Result of phase A of a wait: the outcome, the calling thread
afterwards, the tree afterwards, and user memory afterwards. -/
structure WaitPhaseA where
  outcome : WaitOutcome
  thread : KThread
  tree : List KThread
  mem : Nat → Int

/-- Ordered insertion by `(arbKey, tie)`, equal keys after existing ones:
the spec's `insert(thread)` positioned by `(thread.address_key,
thread.tie_break)`. -/
def insertThread (t : KThread) : List KThread → List KThread
  | [] => [t]
  | u :: rest =>
    if t.arbKey < u.arbKey ∨ (t.arbKey = u.arbKey ∧ t.tie < u.tie) then
      t :: u :: rest
    else
      u :: insertThread t rest

/-- Embedding of phase A of
`KAddressArbiter::WaitIfLessThan(addr, value, decrement, timeout)`, in
the uncontended regime (see `decrementOnce_spec`). -/
def WaitIfLessThan (mem : Nat → Int) (tree : List KThread) (cur : KThread)
    (addr : Nat) (value : Int) (decrement : Bool) (timeout : Int) : WaitPhaseA :=
  if cur.terminationRequested then
    ⟨.early .TerminationRequested, cur, tree, mem⟩
  else
    let cur1 := { cur with waitResult := .TimedOut }
    let u := if decrement then decrementOnce mem addr value else ReadFromUser mem addr
    let mem2 := commitStore mem addr u.store
    if u.ok = false then
      ⟨.early .InvalidCurrentMemory, cur1, tree, mem2⟩
    else if value ≤ u.out then
      ⟨.early .InvalidState, cur1, tree, mem2⟩
    else if timeout = 0 then
      ⟨.early .TimedOut, cur1, tree, mem2⟩
    else
      let cur2 := { cur1 with waitingForArbiter := true, arbKey := addr, runnable := false }
      ⟨.enrolled, cur2, insertThread cur2 tree, mem2⟩

/-- Embedding of phase A of
`KAddressArbiter::WaitIfEqual(addr, value, timeout)`. -/
def WaitIfEqual (mem : Nat → Int) (tree : List KThread) (cur : KThread)
    (addr : Nat) (value : Int) (timeout : Int) : WaitPhaseA :=
  if cur.terminationRequested then
    ⟨.early .TerminationRequested, cur, tree, mem⟩
  else
    let cur1 := { cur with waitResult := .TimedOut }
    let u := ReadFromUser mem addr
    let mem2 := commitStore mem addr u.store
    if u.ok = false then
      ⟨.early .InvalidCurrentMemory, cur1, tree, mem2⟩
    else if value ≠ u.out then
      ⟨.early .InvalidState, cur1, tree, mem2⟩
    else if timeout = 0 then
      ⟨.early .TimedOut, cur1, tree, mem2⟩
    else
      let cur2 := { cur1 with waitingForArbiter := true, arbKey := addr, runnable := false }
      ⟨.enrolled, cur2, insertThread cur2 tree, mem2⟩

/-- Embedding of the post-sleep removal block shared by both waits: under
the scheduler lock, if the thread is still flagged as waiting on the
arbiter (timeout path), erase it from the tree and clear the binding. -/
def removeFromArbiter (tree : List KThread) (cur : KThread) : List KThread × KThread :=
  if cur.waitingForArbiter then
    (tree.eraseP (fun t => t.tid = cur.tid), { cur with waitingForArbiter := false })
  else
    (tree, cur)

/-- Lists laid out as `pre ++ rest` where `p` holds on all of `pre` and
fails on the head of `rest` are split exactly there by
`takeWhile`/`dropWhile`. -/
theorem takeWhile_dropWhile_append {α : Type} (p : α → Bool) (pre rest : List α)
    (h1 : ∀ t ∈ pre, p t = true)
    (h2 : ∀ t, rest.head? = some t → p t = false) :
    (pre ++ rest).takeWhile p = pre ∧ (pre ++ rest).dropWhile p = rest := by
  induction pre with
  | nil =>
    cases rest with
    | nil => simp
    | cons r rs => simp [List.takeWhile_cons, List.dropWhile_cons, h2 r rfl]
  | cons a as ih =>
    have ha := h1 a (by simp)
    have h' := ih (fun t ht => h1 t (by simp [ht]))
    simp [List.takeWhile_cons, List.dropWhile_cons, ha, h'.1, h'.2]

/-- On a sorted tree laid out as `pre ++ mid ++ post` around the keys
equal to `addr`, the lower-bound split lands exactly at `mid`. -/
theorem lowerBoundSplit_decomp (addr : Nat) (pre mid post : List KThread)
    (h1 : ∀ t ∈ pre, t.arbKey < addr)
    (h2 : ∀ t ∈ mid, t.arbKey = addr)
    (h3 : ∀ t ∈ post, addr < t.arbKey) :
    lowerBoundSplit addr (pre ++ (mid ++ post)) = (pre, mid ++ post) := by
  have h2' : ∀ t, (mid ++ post).head? = some t → (fun t => decide (t.arbKey < addr)) t = false := by
    intro t ht
    cases mid with
    | nil =>
      cases post with
      | nil => simp at ht
      | cons q qs =>
        simp at ht
        subst ht
        have := h3 q (by simp)
        simp only [decide_eq_false_iff_not]
        omega
    | cons m ms =>
      simp at ht
      subst ht
      have := h2 m (by simp)
      simp only [decide_eq_false_iff_not]
      omega
  have h1' : ∀ t ∈ pre, (fun t => decide (t.arbKey < addr)) t = true := by
    intro t ht
    simp [h1 t ht]
  have := takeWhile_dropWhile_append (fun t => decide (t.arbKey < addr)) pre (mid ++ post) h1' h2'
  unfold lowerBoundSplit
  rw [this.1, this.2]

/-- The number of threads the wake loop wakes, given `k` same-address
waiters at the lower bound and a running count already at `num`. -/
def wakeCount (count : Int) (k : Nat) (num : Int) : Nat :=
  if count ≤ 0 then k else min k (count - num).toNat

/-- Closed form of the wake loop on a suffix `mid ++ post` where all of
`mid` waits on `addr` and the head of `post` does not. -/
theorem wakeLoop_eq (addr : Nat) (count : Int) (mid post : List KThread)
    (h2 : ∀ t ∈ mid, t.arbKey = addr)
    (h3 : ∀ t, post.head? = some t → t.arbKey ≠ addr) :
    ∀ num : Int,
      wakeLoop addr count (mid ++ post) num =
        (mid.drop (wakeCount count mid.length num) ++ post,
         (mid.take (wakeCount count mid.length num)).map wakeThread,
         num + wakeCount count mid.length num) := by
  induction mid with
  | nil =>
    intro num
    have hwc : wakeCount count 0 num = 0 := by
      unfold wakeCount; split <;> simp
    cases post with
    | nil => simp [wakeLoop, hwc]
    | cons q qs =>
      have hq := h3 q rfl
      simp [wakeLoop, hwc, hq]
  | cons t rest ih =>
    intro num
    have ht : t.arbKey = addr := h2 t (by simp)
    have hrest : ∀ u ∈ rest, u.arbKey = addr := fun u hu => h2 u (by simp [hu])
    by_cases hc : count ≤ 0 ∨ num < count
    · have hn : wakeCount count (t :: rest).length num
          = wakeCount count rest.length (num + 1) + 1 := by
        unfold wakeCount
        rcases hc with hc | hc
        · simp [hc]
        · by_cases h0 : count ≤ 0
          · simp [h0]
          · simp only [if_neg h0, List.length_cons]
            omega
      have step : wakeLoop addr count ((t :: rest) ++ post) num
          = ((wakeLoop addr count (rest ++ post) (num + 1)).1,
             wakeThread t :: (wakeLoop addr count (rest ++ post) (num + 1)).2.1,
             (wakeLoop addr count (rest ++ post) (num + 1)).2.2) := by
        simp only [List.cons_append, wakeLoop, List.append_eq]
        rw [if_pos ⟨hc, ht⟩]
      rw [step, ih hrest (num + 1), hn]
      simp only [List.drop_succ_cons, List.take_succ_cons, List.map_cons, Prod.mk.injEq,
        true_and]
      push_cast
      ring
    · have hcount : ¬ count ≤ 0 := fun h => hc (Or.inl h)
      have hnum : ¬ num < count := fun h => hc (Or.inr h)
      have hn : wakeCount count (t :: rest).length num = 0 := by
        unfold wakeCount
        simp only [if_neg hcount]
        omega
      have step : wakeLoop addr count ((t :: rest) ++ post) num
          = (t :: (rest ++ post), [], num) := by
        simp only [List.cons_append, wakeLoop, List.append_eq]
        rw [if_neg (fun h => hc h.1)]
      rw [step, hn]
      simp

/-- Closed form of the capped waiter-counting loop: starting from `tmp`
with `tmp ≤ count`, the loop returns the uncapped total when it fits
under `count` and `count + 1` otherwise. -/
theorem tmpLoop_eq (addr : Nat) (count : Int) (mid post : List KThread)
    (h2 : ∀ t ∈ mid, t.arbKey = addr)
    (h3 : ∀ t, post.head? = some t → t.arbKey ≠ addr) :
    ∀ tmp : Int, tmp ≤ count →
      tmpLoop addr count (mid ++ post) tmp =
        if tmp + mid.length ≤ count then tmp + mid.length else count + 1 := by
  induction mid with
  | nil =>
    intro tmp htc
    have hbase : tmpLoop addr count ([] ++ post) tmp = tmp := by
      cases post with
      | nil => simp [tmpLoop]
      | cons q qs => simp [tmpLoop, h3 q rfl]
    rw [hbase]
    split_ifs with h
    · simp
    · exfalso
      apply h
      simp only [List.length_nil]
      omega
  | cons t rest ih =>
    intro tmp htc
    have ht : t.arbKey = addr := h2 t (by simp)
    have hrest : ∀ u ∈ rest, u.arbKey = addr := fun u hu => h2 u (by simp [hu])
    have step : tmpLoop addr count ((t :: rest) ++ post) tmp
        = if count ≤ tmp then tmp + 1 else tmpLoop addr count (rest ++ post) (tmp + 1) := by
      simp only [List.cons_append, tmpLoop, List.append_eq]
      rw [if_pos ht]
    rw [step]
    by_cases hle : count ≤ tmp
    · rw [if_pos hle]
      have hlen : ((t :: rest).length : Int) = (rest.length : Int) + 1 := by
        simp only [List.length_cons]; push_cast; ring
      rw [hlen]
      split_ifs with h
      · omega
      · omega
    · rw [if_neg hle]
      have htc' : tmp + 1 ≤ count := by omega
      rw [ih hrest (tmp + 1) htc']
      have hlen : ((t :: rest).length : Int) = (rest.length : Int) + 1 := by
        simp only [List.length_cons]; push_cast; ring
      rw [hlen]
      split_ifs with h h' h' <;> omega

/-- Closed form of the `new_value` computation on a suffix `mid ++ post`
with `mid` the same-address waiters. -/
theorem computeNewValue_eq (addr : Nat) (value count : Int) (mid post : List KThread)
    (h2 : ∀ t ∈ mid, t.arbKey = addr)
    (h3 : ∀ t, post.head? = some t → t.arbKey ≠ addr) :
    computeNewValue addr value count (mid ++ post) =
      if count ≤ 0 then (if mid.length = 0 then value + 1 else value - 2)
      else if mid.length = 0 then value + 1
      else if (mid.length : Int) ≤ count then value - 1
      else value := by
  cases mid with
  | nil =>
    have hbase : computeNewValue addr value count ([] ++ post) = value + 1 := by
      cases post with
      | nil => simp [computeNewValue]
      | cons q qs =>
        have hq := h3 q rfl
        simp [computeNewValue, hq]
    rw [hbase]
    split_ifs <;> simp_all
  | cons t rest =>
    have ht : t.arbKey = addr := h2 t (by simp)
    have hrest : ∀ u ∈ rest, u.arbKey = addr := fun u hu => h2 u (by simp [hu])
    by_cases hcnt : count ≤ 0
    · have hbase : computeNewValue addr value count ((t :: rest) ++ post) = value - 2 := by
        simp only [List.cons_append, computeNewValue, List.append_eq]
        rw [if_pos hcnt, if_pos ht]
      rw [hbase]
      rw [if_pos hcnt, if_neg (by simp : ¬ ((t :: rest).length = 0))]
    · have h0c : (0 : Int) ≤ count := by omega
      have htmp := tmpLoop_eq addr count rest post hrest h3 0 h0c
      have hbase : computeNewValue addr value count ((t :: rest) ++ post)
          = if tmpLoop addr count (rest ++ post) 0 < count then value - 1 else value := by
        simp only [List.cons_append, computeNewValue, List.append_eq]
        rw [if_neg hcnt, if_pos ht]
      rw [hbase, htmp]
      rw [if_neg hcnt, if_neg (by simp : ¬ ((t :: rest).length = 0))]
      have hlen : (((t :: rest).length : Nat) : Int) = (rest.length : Int) + 1 := by
        simp only [List.length_cons]; push_cast; ring
      rw [hlen]
      split_ifs with h h' h' <;> omega

theorem mem_of_mem_takeWhile {α : Type} (p : α → Bool) :
    ∀ (l : List α) (t : α), t ∈ l.takeWhile p → t ∈ l := by
  intro l
  induction l with
  | nil => intro t ht; simp at ht
  | cons a as ih =>
    intro t ht
    rw [List.takeWhile_cons] at ht
    by_cases hp : p a = true
    · rw [if_pos hp] at ht
      rcases List.mem_cons.mp ht with h | h
      · simp [h]
      · simp [ih t h]
    · rw [if_neg hp] at ht
      simp at ht

theorem mem_of_mem_dropWhile {α : Type} (p : α → Bool) :
    ∀ (l : List α) (t : α), t ∈ l.dropWhile p → t ∈ l := by
  intro l
  induction l with
  | nil => intro t ht; simp at ht
  | cons a as ih =>
    intro t ht
    rw [List.dropWhile_cons] at ht
    by_cases hp : p a = true
    · rw [if_pos hp] at ht
      simp [ih t ht]
    · rw [if_neg hp] at ht
      exact ht

/-- Threads left behind by the wake loop were already in the input. -/
theorem wakeLoop_rest_mem (addr : Nat) (count : Int) :
    ∀ (l : List KThread) (num : Int) (t : KThread),
      t ∈ (wakeLoop addr count l num).1 → t ∈ l := by
  intro l
  induction l with
  | nil => intro num t ht; simp [wakeLoop] at ht
  | cons a as ih =>
    intro num t ht
    by_cases hc : (count ≤ 0 ∨ num < count) ∧ a.arbKey = addr
    · rw [wakeLoop, if_pos hc] at ht
      exact List.mem_cons_of_mem a (ih (num + 1) t ht)
    · rw [wakeLoop, if_neg hc] at ht
      exact ht

/-- Every thread the wake loop wakes leaves with result `Success`, the
arbiter binding cleared, and the thread runnable. -/
theorem wakeLoop_woken_fields (addr : Nat) (count : Int) :
    ∀ (l : List KThread) (num : Int) (t : KThread),
      t ∈ (wakeLoop addr count l num).2.1 →
        t.waitResult = .Success ∧ t.waitingForArbiter = false ∧ t.runnable = true := by
  intro l
  induction l with
  | nil => intro num t ht; simp [wakeLoop] at ht
  | cons a as ih =>
    intro num t ht
    by_cases hc : (count ≤ 0 ∨ num < count) ∧ a.arbKey = addr
    · rw [wakeLoop, if_pos hc] at ht
      rcases List.mem_cons.mp ht with h | h
      · subst h
        simp [wakeThread]
      · exact ih (num + 1) t h
    · rw [wakeLoop, if_neg hc] at ht
      simp at ht

/-- Membership after an ordered insert. -/
theorem mem_insertThread (t : KThread) :
    ∀ (l : List KThread) (u : KThread), u ∈ insertThread t l → u = t ∨ u ∈ l := by
  intro l
  induction l with
  | nil => intro u hu; simp [insertThread] at hu; simp [hu]
  | cons a as ih =>
    intro u hu
    rw [insertThread] at hu
    by_cases hc : t.arbKey < a.arbKey ∨ (t.arbKey = a.arbKey ∧ t.tie < a.tie)
    · rw [if_pos hc] at hu
      rcases List.mem_cons.mp hu with h | h
      · exact Or.inl h
      · exact Or.inr h
    · rw [if_neg hc] at hu
      rcases List.mem_cons.mp hu with h | h
      · exact Or.inr (by simp [h])
      · rcases ih u h with h' | h'
        · exact Or.inl h'
        · exact Or.inr (List.mem_cons_of_mem a h')

/-- The flag-consistency invariant of the spec, restricted to what the
model can observe: every thread resident in the WaitTree has
`IsWaitingForAddressArbiter()` set. -/
def TreeInv (tree : List KThread) : Prop :=
  ∀ t ∈ tree, t.waitingForArbiter = true

instance (tree : List KThread) : Decidable (TreeInv tree) := by
  unfold TreeInv
  infer_instance

theorem head_ne_of_gt (addr : Nat) (post : List KThread)
    (h3 : ∀ t ∈ post, addr < t.arbKey) :
    ∀ t, post.head? = some t → t.arbKey ≠ addr := by
  intro t ht
  cases post with
  | nil => simp at ht
  | cons q qs =>
    simp at ht
    subst ht
    have := h3 q (by simp)
    omega

/-- Closed form of `Signal` on a sorted tree decomposed around `addr`. -/
theorem Signal_eq (mem : Nat → Int) (pre mid post : List KThread) (addr : Nat) (count : Int)
    (h1 : ∀ t ∈ pre, t.arbKey < addr)
    (h2 : ∀ t ∈ mid, t.arbKey = addr)
    (h3 : ∀ t ∈ post, addr < t.arbKey) :
    Signal mem (pre ++ (mid ++ post)) addr count
      = ⟨.Success,
         pre ++ (mid.drop (wakeCount count mid.length 0) ++ post),
         (mid.take (wakeCount count mid.length 0)).map wakeThread,
         mem⟩ := by
  have hsplit := lowerBoundSplit_decomp addr pre mid post h1 h2 h3
  have hloop := wakeLoop_eq addr count mid post h2 (head_ne_of_gt addr post h3) 0
  simp only [Signal, hsplit, hloop]

/-- Sample waiting thread used by the concrete witnesses. -/
def wThread (id tie key : Nat) : KThread :=
  ⟨id, tie, key, true, .TimedOut, false, false⟩

/-- C2: the spec requires that after a failed exclusive store the
operation restart and that `value_before` be the value obtained by the
restarted read — the 32 bits the final comparison observed and, on the
write path, the value the successful store committed against.  The code
instead recurses on store failure and then still executes
`*out = current_value` in the outer frame, so the caller receives the
FIRST attempt's read.  On the monitor trace (read 5, store fails;
read 3, store succeeds) with bound 10, the committed store is 2 — the
decrement of the restarted read 3 — yet `*out` is 5; on the trace
(read 0 = expected, store fails; read 7, no store) `UpdateIfEqual`
outputs 0, indistinguishable from a successful CAS, although nothing
was stored and the final comparison observed 7. -/
theorem C2_out_is_first_attempt :
    DecrementIfLessThan 10 [⟨5, false⟩, ⟨3, true⟩] = some ⟨true, 5, some 2⟩ ∧
    UpdateIfEqual 0 1 [⟨0, false⟩, ⟨7, true⟩] = some ⟨true, 0, none⟩ := by
  constructor <;> decide

/-- C10: the cell arithmetic is wrapping 32-bit two's-complement:
`DecrementIfLessThan` on a cell holding `-2^31` with any larger bound
stores `2^31 - 1`, and the `expected + 1` stored by
`SignalAndIncrementIfEqual` wraps to `-2^31` when `expected` is
`2^31 - 1`. -/
theorem C10_wrapping_arithmetic :
    (∀ (mem : Nat → Int) (addr : Nat) (value : Int),
       mem addr = -(2 ^ 31) → -(2 ^ 31) < value →
         (decrementOnce mem addr value).store = some (2 ^ 31 - 1)) ∧
    (∀ (mem : Nat → Int) (tree : List KThread) (addr : Nat) (count : Int),
       mem addr = 2 ^ 31 - 1 →
         (SignalAndIncrementIfEqual mem tree addr (2 ^ 31 - 1) count).mem addr
           = -(2 ^ 31)) := by
  constructor
  · intro mem addr value hm hv
    unfold decrementOnce
    simp only [hm]
    rw [if_pos hv]
    norm_num [wrap32s]
  · intro mem tree addr count hm
    unfold SignalAndIncrementIfEqual updateOnce
    simp only [hm]
    norm_num [commitStore, wrap32s]

theorem C10_wrapping_arithmetic_witness :
    (decrementOnce (fun _ => -(2 ^ 31)) 0 0).store = some (2 ^ 31 - 1) ∧
    (SignalAndIncrementIfEqual (fun _ => 2 ^ 31 - 1) [] 0 (2 ^ 31 - 1) 1).mem 0 = -(2 ^ 31) :=
  ⟨C10_wrapping_arithmetic.1 (fun _ => -(2 ^ 31)) 0 0 rfl (by norm_num),
   C10_wrapping_arithmetic.2 (fun _ => 2 ^ 31 - 1) [] 0 1 rfl⟩

/-- C1: on a sorted tree with exactly `mid.length` threads waiting on
`addr`, `Signal(addr, count)` returns `Success` and wakes exactly
`min(k, count)` threads when `count > 0` and all `k` when `count ≤ 0`;
the woken threads are the first ones in tree iteration order, each with
result `Success`, erased from the tree, binding cleared and made
runnable; threads on other addresses (`pre` and `post`) are untouched,
and the user memory is untouched. -/
theorem C1_signal_exactness (mem : Nat → Int) (pre mid post : List KThread) (addr : Nat)
    (count : Int)
    (h1 : ∀ t ∈ pre, t.arbKey < addr)
    (h2 : ∀ t ∈ mid, t.arbKey = addr)
    (h3 : ∀ t ∈ post, addr < t.arbKey) :
    (Signal mem (pre ++ (mid ++ post)) addr count).res = .Success ∧
    (Signal mem (pre ++ (mid ++ post)) addr count).woken
      = (mid.take (if 0 < count then min mid.length count.toNat else mid.length)).map
          wakeThread ∧
    (Signal mem (pre ++ (mid ++ post)) addr count).woken.length
      = (if 0 < count then min mid.length count.toNat else mid.length) ∧
    (∀ t ∈ (Signal mem (pre ++ (mid ++ post)) addr count).woken,
       t.waitResult = .Success ∧ t.waitingForArbiter = false ∧ t.runnable = true) ∧
    (Signal mem (pre ++ (mid ++ post)) addr count).tree
      = pre ++ (mid.drop (if 0 < count then min mid.length count.toNat else mid.length)
          ++ post) ∧
    (Signal mem (pre ++ (mid ++ post)) addr count).mem = mem := by
  have hn : wakeCount count mid.length 0
      = (if 0 < count then min mid.length count.toNat else mid.length) := by
    unfold wakeCount
    rw [Int.sub_zero]
    split_ifs <;> omega
  rw [Signal_eq mem pre mid post addr count h1 h2 h3, hn]
  refine ⟨rfl, rfl, ?_, ?_, rfl, rfl⟩
  · rw [List.length_map, List.length_take]
    split_ifs <;> omega
  · intro t ht
    rcases List.mem_map.mp ht with ⟨u, _, hu⟩
    subst hu
    simp [wakeThread]

theorem C1_signal_exactness_witness :
    (∀ t ∈ [wThread 0 0 100], t.arbKey < 8192) ∧
    (∀ t ∈ [wThread 1 20 8192, wThread 2 20 8192, wThread 3 30 8192], t.arbKey = 8192) ∧
    (∀ t ∈ [wThread 4 0 9000], 8192 < t.arbKey) ∧
    (Signal (fun _ => 0)
        ([wThread 0 0 100]
          ++ ([wThread 1 20 8192, wThread 2 20 8192, wThread 3 30 8192]
            ++ [wThread 4 0 9000])) 8192 2).res = .Success :=
  ⟨by decide, by decide, by decide,
   (C1_signal_exactness (fun _ => 0) [wThread 0 0 100]
      [wThread 1 20 8192, wThread 2 20 8192, wThread 3 30 8192] [wThread 4 0 9000] 8192 2
      (by decide) (by decide) (by decide)).1⟩

theorem wakeCount_zero (count : Int) (k : Nat) :
    wakeCount count k 0 = if 0 < count then min k count.toNat else k := by
  unfold wakeCount
  rw [Int.sub_zero]
  split_ifs <;> omega

/-- C3: the value chosen for the conditional store in
`SignalAndModifyByWaitingCountIfEqual(addr, expected, count)` is:
for `count ≤ 0`, `expected - 2` when at least one thread waits on `addr`
and `expected + 1` when none does; for `count > 0`, `expected + 1` when
no thread waits, `expected - 1` when the total number of waiters on
`addr` is at most `count`, and `expected` unchanged when more than
`count` threads wait. -/
theorem C3_modify_chosen_value (addr : Nat) (value count : Int) (pre mid post : List KThread)
    (h1 : ∀ t ∈ pre, t.arbKey < addr)
    (h2 : ∀ t ∈ mid, t.arbKey = addr)
    (h3 : ∀ t ∈ post, addr < t.arbKey) :
    computeNewValue addr value count ((lowerBoundSplit addr (pre ++ (mid ++ post))).2)
      = if count ≤ 0 then (if mid.length = 0 then value + 1 else value - 2)
        else if mid.length = 0 then value + 1
        else if (mid.length : Int) ≤ count then value - 1
        else value := by
  rw [lowerBoundSplit_decomp addr pre mid post h1 h2 h3]
  exact computeNewValue_eq addr value count mid post h2 (head_ne_of_gt addr post h3)

theorem C3_modify_chosen_value_witness :
    (∀ t ∈ [wThread 0 0 100], t.arbKey < 8192) ∧
    (∀ t ∈ [wThread 1 0 8192, wThread 2 1 8192], t.arbKey = 8192) ∧
    (∀ t ∈ ([] : List KThread), 8192 < t.arbKey) ∧
    computeNewValue 8192 10 1
        ((lowerBoundSplit 8192
          ([wThread 0 0 100] ++ ([wThread 1 0 8192, wThread 2 1 8192] ++ []))).2)
      = if (1 : Int) ≤ 0
          then (if [wThread 1 0 8192, wThread 2 1 8192].length = 0 then 10 + 1 else 10 - 2)
        else if [wThread 1 0 8192, wThread 2 1 8192].length = 0 then 10 + 1
        else if ([wThread 1 0 8192, wThread 2 1 8192].length : Int) ≤ 1 then 10 - 1
        else 10 :=
  ⟨by decide, by decide, by decide,
   C3_modify_chosen_value 8192 10 1 [wThread 0 0 100] [wThread 1 0 8192, wThread 2 1 8192]
     [] (by decide) (by decide) (by decide)⟩

/-- C4: `SignalAndIncrementIfEqual(addr, expected, count)` returns
`InvalidState`, wakes no waiter, and leaves the tree and the user cell
unchanged whenever the observed cell value differs from `expected`;
whenever it returns `Success` the cell has been written to
`expected + 1` (as a wrapping 32-bit value).  The third conjunct states
the contended generalisation: on any monitor trace in which no
intervening writer changed the cell (all exclusive reads observe the
same value), the output equals that value, and if it equals `expected`
a store of `expected + 1` was committed. -/
theorem C4_increment_if_equal (mem : Nat → Int) (tree : List KThread) (addr : Nat)
    (value count : Int) :
    (mem addr ≠ value →
       (SignalAndIncrementIfEqual mem tree addr value count).res = .InvalidState ∧
       (SignalAndIncrementIfEqual mem tree addr value count).woken = [] ∧
       (SignalAndIncrementIfEqual mem tree addr value count).tree = tree ∧
       (SignalAndIncrementIfEqual mem tree addr value count).mem = mem) ∧
    ((SignalAndIncrementIfEqual mem tree addr value count).res = .Success →
       (SignalAndIncrementIfEqual mem tree addr value count).mem addr
         = wrap32s (value + 1)) ∧
    (∀ (steps : List MonitorStep) (v0 : Int) (u : AtomicResult),
       (∀ s ∈ steps, s.readValue = v0) →
       UpdateIfEqual value (value + 1) steps = some u →
       u.out = v0 ∧ (u.out = value → u.store = some (wrap32s (value + 1)))) := by
  refine ⟨?_, ?_, ?_⟩
  · intro h
    simp [SignalAndIncrementIfEqual, updateOnce, commitStore, h]
  · intro hres
    by_cases hv : mem addr = value
    · simp [SignalAndIncrementIfEqual, updateOnce, commitStore, hv]
    · exfalso
      simp [SignalAndIncrementIfEqual, updateOnce, commitStore, hv] at hres
  · intro steps
    induction steps with
    | nil =>
      intro v0 u hall hu
      simp [UpdateIfEqual] at hu
    | cons s rest ih =>
      intro v0 u hall hu
      have hs : s.readValue = v0 := hall s (by simp)
      have hrest : ∀ x ∈ rest, x.readValue = v0 := fun x hx => hall x (by simp [hx])
      simp only [UpdateIfEqual] at hu
      by_cases hv : s.readValue = value
      · rw [if_pos hv] at hu
        by_cases hok : s.storeOk = true
        · rw [if_pos hok] at hu
          have hru := Option.some.inj hu
          refine ⟨?_, fun _ => ?_⟩
          · rw [← hru, ← hs]
          · rw [← hru]
        · rw [if_neg hok] at hu
          cases hrec : UpdateIfEqual value (value + 1) rest with
          | none =>
            rw [hrec] at hu
            simp at hu
          | some r =>
            rw [hrec] at hu
            have hru := Option.some.inj hu
            have hr := ih v0 r hrest hrec
            have hrout : r.out = value := by
              rw [hr.1, ← hs, hv]
            refine ⟨?_, fun _ => ?_⟩
            · rw [← hru, ← hs]
            · rw [← hru]
              simpa using hr.2 hrout
      · rw [if_neg hv] at hu
        have hru := Option.some.inj hu
        refine ⟨?_, fun hout => ?_⟩
        · rw [← hru, ← hs]
        · exfalso
          apply hv
          rw [← hru] at hout
          simpa using hout

theorem C4_increment_if_equal_witness :
    ((fun _ => (5 : Int)) 12288 ≠ 4) ∧
    (SignalAndIncrementIfEqual (fun _ => (5 : Int)) [] 12288 4 1).res = .InvalidState ∧
    (SignalAndIncrementIfEqual (fun _ => (5 : Int)) [] 12288 4 1).woken = [] ∧
    (SignalAndIncrementIfEqual (fun _ => (5 : Int)) [] 12288 4 1).tree = [] ∧
    (SignalAndIncrementIfEqual (fun _ => (5 : Int)) [] 12288 4 1).mem = (fun _ => (5 : Int)) := by
  have h := (C4_increment_if_equal (fun _ => (5 : Int)) [] 12288 4 1).1 (by decide)
  exact ⟨by decide, h.1, h.2.1, h.2.2.1, h.2.2.2⟩

/-- C7: when the computed new value equals `expected`,
`SignalAndModifyByWaitingCountIfEqual` performs only a plain read of the
user cell and never writes it, so the memory is unchanged on every path,
while the waiters are still woken exactly as by `Signal`; with two
waiters on the address and `count = 1`, the cell keeps its value and
exactly one waiter is woken. -/
theorem C7_unchanged_value_never_writes (mem : Nat → Int) (pre mid post : List KThread)
    (addr : Nat) (value count : Int)
    (h1 : ∀ t ∈ pre, t.arbKey < addr)
    (h2 : ∀ t ∈ mid, t.arbKey = addr)
    (h3 : ∀ t ∈ post, addr < t.arbKey)
    (hnv : computeNewValue addr value count (mid ++ post) = value) :
    (SignalAndModifyByWaitingCountIfEqual mem (pre ++ (mid ++ post)) addr value count).mem
      = mem ∧
    (mem addr = value →
       (SignalAndModifyByWaitingCountIfEqual mem (pre ++ (mid ++ post)) addr value
           count).res = .Success ∧
       (SignalAndModifyByWaitingCountIfEqual mem (pre ++ (mid ++ post)) addr value
           count).woken
         = (mid.take (if 0 < count then min mid.length count.toNat else mid.length)).map
             wakeThread ∧
       (SignalAndModifyByWaitingCountIfEqual mem (pre ++ (mid ++ post)) addr value
           count).tree
         = pre ++ (mid.drop (if 0 < count then min mid.length count.toNat else mid.length)
             ++ post)) ∧
    (mem addr ≠ value →
       (SignalAndModifyByWaitingCountIfEqual mem (pre ++ (mid ++ post)) addr value
           count).res = .InvalidState ∧
       (SignalAndModifyByWaitingCountIfEqual mem (pre ++ (mid ++ post)) addr value
           count).woken = []) := by
  have hsplit := lowerBoundSplit_decomp addr pre mid post h1 h2 h3
  have hloop := wakeLoop_eq addr count mid post h2 (head_ne_of_gt addr post h3) 0
  have hn := wakeCount_zero count mid.length
  refine ⟨?_, ?_, ?_⟩
  · by_cases hm : mem addr = value <;>
      simp [SignalAndModifyByWaitingCountIfEqual, hsplit, hnv, ReadFromUser, commitStore, hm]
  · intro hm
    simp [SignalAndModifyByWaitingCountIfEqual, hsplit, hnv, ReadFromUser, commitStore, hm,
      hloop, hn]
  · intro hm
    simp [SignalAndModifyByWaitingCountIfEqual, hsplit, hnv, ReadFromUser, commitStore, hm]

theorem C7_unchanged_value_never_writes_witness :
    computeNewValue 20480 10 1 ([wThread 1 0 20480, wThread 2 1 20480] ++ []) = 10 ∧
    (SignalAndModifyByWaitingCountIfEqual (fun _ => 10)
        ([] ++ ([wThread 1 0 20480, wThread 2 1 20480] ++ [])) 20480 10 1).mem
      = (fun _ => 10) ∧
    (SignalAndModifyByWaitingCountIfEqual (fun _ => 10)
        ([] ++ ([wThread 1 0 20480, wThread 2 1 20480] ++ [])) 20480 10 1).res = .Success ∧
    (SignalAndModifyByWaitingCountIfEqual (fun _ => 10)
        ([] ++ ([wThread 1 0 20480, wThread 2 1 20480] ++ [])) 20480 10 1).woken
      = [wakeThread (wThread 1 0 20480)] ∧
    (SignalAndModifyByWaitingCountIfEqual (fun _ => 10)
        ([] ++ ([wThread 1 0 20480, wThread 2 1 20480] ++ [])) 20480 10 1).tree
      = [wThread 2 1 20480] := by
  have h := C7_unchanged_value_never_writes (fun _ => 10) []
    [wThread 1 0 20480, wThread 2 1 20480] [] 20480 10 1
    (by decide) (by decide) (by decide) (by decide)
  refine ⟨by decide, h.1, (h.2.1 rfl).1, ?_, ?_⟩
  · rw [(h.2.1 rfl).2.1]
    decide
  · rw [(h.2.1 rfl).2.2]
    decide

/-- C5: in `WaitIfLessThan` and `WaitIfEqual` the early-return tests
fire in source order — termination requested (before any user-memory
access), then memory readability, then the value precondition, then
`timeout == 0` — and on every early return the calling thread is not
enrolled and the tree is unchanged; the termination case also leaves the
user cell untouched even when `decrement` is requested, and the failed
value precondition leaves the cell untouched because the decrement is
conditional. -/
theorem C5_early_return_order (mem : Nat → Int) (tree : List KThread) (cur : KThread)
    (addr : Nat) (value : Int) (decrement : Bool) (timeout : Int) :
    (cur.terminationRequested = true →
       (WaitIfLessThan mem tree cur addr value decrement timeout).outcome
           = .early .TerminationRequested ∧
       (WaitIfLessThan mem tree cur addr value decrement timeout).tree = tree ∧
       (WaitIfLessThan mem tree cur addr value decrement timeout).mem = mem ∧
       (WaitIfEqual mem tree cur addr value timeout).outcome
           = .early .TerminationRequested ∧
       (WaitIfEqual mem tree cur addr value timeout).tree = tree ∧
       (WaitIfEqual mem tree cur addr value timeout).mem = mem) ∧
    (cur.terminationRequested = false → value ≤ mem addr →
       (WaitIfLessThan mem tree cur addr value decrement timeout).outcome
           = .early .InvalidState ∧
       (WaitIfLessThan mem tree cur addr value decrement timeout).tree = tree ∧
       (WaitIfLessThan mem tree cur addr value decrement timeout).mem = mem) ∧
    (cur.terminationRequested = false → mem addr ≠ value →
       (WaitIfEqual mem tree cur addr value timeout).outcome = .early .InvalidState ∧
       (WaitIfEqual mem tree cur addr value timeout).tree = tree ∧
       (WaitIfEqual mem tree cur addr value timeout).mem = mem) ∧
    (cur.terminationRequested = false → mem addr < value → timeout = 0 →
       (WaitIfLessThan mem tree cur addr value decrement timeout).outcome
           = .early .TimedOut ∧
       (WaitIfLessThan mem tree cur addr value decrement timeout).tree = tree) ∧
    (cur.terminationRequested = false → mem addr = value → timeout = 0 →
       (WaitIfEqual mem tree cur addr value timeout).outcome = .early .TimedOut ∧
       (WaitIfEqual mem tree cur addr value timeout).tree = tree ∧
       (WaitIfEqual mem tree cur addr value timeout).mem = mem) ∧
    (∀ rc, (WaitIfLessThan mem tree cur addr value decrement timeout).outcome = .early rc →
       (WaitIfLessThan mem tree cur addr value decrement timeout).tree = tree) ∧
    (∀ rc, (WaitIfEqual mem tree cur addr value timeout).outcome = .early rc →
       (WaitIfEqual mem tree cur addr value timeout).tree = tree) := by
  refine ⟨?_, ?_, ?_, ?_, ?_, ?_, ?_⟩
  · intro hterm
    simp [WaitIfLessThan, WaitIfEqual, hterm]
  · intro hterm hv
    have hnot : ¬ mem addr < value := by omega
    cases decrement <;>
      simp [WaitIfLessThan, ReadFromUser, decrementOnce, commitStore, hterm, hv, hnot]
  · intro hterm hv
    simp [WaitIfEqual, ReadFromUser, commitStore, hterm, Ne.symm hv]
  · intro hterm hm ht0
    have hnot : ¬ value ≤ mem addr := by omega
    cases decrement <;>
      simp [WaitIfLessThan, ReadFromUser, decrementOnce, commitStore, hterm, hm, hnot, ht0]
  · intro hterm hm ht0
    simp [WaitIfEqual, ReadFromUser, commitStore, hterm, hm, ht0]
  · intro rc
    cases decrement <;>
      (simp only [WaitIfLessThan, ReadFromUser, decrementOnce, commitStore];
       split_ifs <;> simp)
  · intro rc
    simp only [WaitIfEqual, ReadFromUser, commitStore]
    split_ifs <;> simp

theorem C5_early_return_order_witness :
    (wThread 7 0 0).terminationRequested = false ∧
    ((fun _ => (3 : Int)) 16384 < 5) ∧ ((0 : Int) = 0) ∧
    (WaitIfLessThan (fun _ => (3 : Int)) [] (wThread 7 0 0) 16384 5 true 0).outcome
        = .early .TimedOut ∧
    (WaitIfLessThan (fun _ => (3 : Int)) [] (wThread 7 0 0) 16384 5 true 0).tree = [] := by
  have h := (C5_early_return_order (fun _ => (3 : Int)) [] (wThread 7 0 0) 16384 5 true
    0).2.2.2.1 (by decide) (by decide) rfl
  exact ⟨by decide, by decide, rfl, h.1, h.2⟩

/-- C6: for a cell value below the bound,
`WaitIfLessThan(addr, bound, decrement := true, timeout := 0)` returns
`TimedOut` (not `InvalidState`), does not enroll the thread, and leaves
the cell decremented by one (as a wrapping 32-bit value); for a cell
value at or above the bound it returns `InvalidState` with the cell
unchanged, because `DecrementIfLessThan` writes only when the comparison
succeeds. -/
theorem C6_timeout_zero_decrement (mem : Nat → Int) (tree : List KThread) (cur : KThread)
    (addr : Nat) (value : Int)
    (hterm : cur.terminationRequested = false) :
    (mem addr < value →
       (WaitIfLessThan mem tree cur addr value true 0).outcome = .early .TimedOut ∧
       (WaitIfLessThan mem tree cur addr value true 0).tree = tree ∧
       (WaitIfLessThan mem tree cur addr value true 0).mem addr
           = wrap32s (mem addr - 1) ∧
       (∀ a, a ≠ addr → (WaitIfLessThan mem tree cur addr value true 0).mem a = mem a)) ∧
    (value ≤ mem addr →
       (WaitIfLessThan mem tree cur addr value true 0).outcome = .early .InvalidState ∧
       (WaitIfLessThan mem tree cur addr value true 0).tree = tree ∧
       (WaitIfLessThan mem tree cur addr value true 0).mem = mem) := by
  constructor
  · intro hm
    have hnot : ¬ value ≤ mem addr := by omega
    refine ⟨?_, ?_, ?_, ?_⟩ <;>
      simp [WaitIfLessThan, decrementOnce, commitStore, hterm, hm, hnot]
    intro a ha
    simp [ha]
  · intro hv
    have hnot : ¬ mem addr < value := by omega
    simp [WaitIfLessThan, decrementOnce, commitStore, hterm, hv, hnot]

theorem C6_timeout_zero_decrement_witness :
    (wThread 7 0 0).terminationRequested = false ∧
    ((fun _ => (3 : Int)) 16384 < 5) ∧
    (WaitIfLessThan (fun _ => (3 : Int)) [] (wThread 7 0 0) 16384 5 true 0).outcome
        = .early .TimedOut ∧
    (WaitIfLessThan (fun _ => (3 : Int)) [] (wThread 7 0 0) 16384 5 true 0).mem 16384 = 2 := by
  have h := (C6_timeout_zero_decrement (fun _ => (3 : Int)) [] (wThread 7 0 0) 16384 5
    (by decide)).1 (by decide)
  refine ⟨by decide, by decide, h.1, ?_⟩
  rw [h.2.2.1]
  decide

/-- Invariant transport through the common wake structure: residents of
the resulting tree were residents before, and woken threads leave with
the binding cleared. -/
theorem wake_structure_inv (tree : List KThread) (addr : Nat) (count : Int)
    (hinv : TreeInv tree) :
    TreeInv ((lowerBoundSplit addr tree).1
        ++ (wakeLoop addr count (lowerBoundSplit addr tree).2 0).1) ∧
    ∀ t ∈ (wakeLoop addr count (lowerBoundSplit addr tree).2 0).2.1,
      t.waitingForArbiter = false := by
  constructor
  · intro t ht
    rcases List.mem_append.mp ht with h | h
    · exact hinv t (mem_of_mem_takeWhile _ tree t h)
    · exact hinv t (mem_of_mem_dropWhile _ tree t (wakeLoop_rest_mem addr count _ 0 t h))
  · intro t ht
    exact (wakeLoop_woken_fields addr count _ 0 t ht).2.1

/-- Either branch structure of `SignalAndIncrementIfEqual`: the tree and
woken list are unchanged/[] on the error paths, or exactly the wake
structure on the success path. -/
theorem SignalAndIncrement_tree_woken (mem : Nat → Int) (tree : List KThread) (addr : Nat)
    (value count : Int) :
    ((SignalAndIncrementIfEqual mem tree addr value count).tree = tree ∧
       (SignalAndIncrementIfEqual mem tree addr value count).woken = []) ∨
    ((SignalAndIncrementIfEqual mem tree addr value count).tree
        = (lowerBoundSplit addr tree).1
          ++ (wakeLoop addr count (lowerBoundSplit addr tree).2 0).1 ∧
       (SignalAndIncrementIfEqual mem tree addr value count).woken
        = (wakeLoop addr count (lowerBoundSplit addr tree).2 0).2.1) := by
  simp only [SignalAndIncrementIfEqual, updateOnce]
  split_ifs <;> simp

/-- Either branch structure of `SignalAndModifyByWaitingCountIfEqual`. -/
theorem SignalAndModify_tree_woken (mem : Nat → Int) (tree : List KThread) (addr : Nat)
    (value count : Int) :
    ((SignalAndModifyByWaitingCountIfEqual mem tree addr value count).tree = tree ∧
       (SignalAndModifyByWaitingCountIfEqual mem tree addr value count).woken = []) ∨
    ((SignalAndModifyByWaitingCountIfEqual mem tree addr value count).tree
        = (lowerBoundSplit addr tree).1
          ++ (wakeLoop addr count (lowerBoundSplit addr tree).2 0).1 ∧
       (SignalAndModifyByWaitingCountIfEqual mem tree addr value count).woken
        = (wakeLoop addr count (lowerBoundSplit addr tree).2 0).2.1) := by
  simp only [SignalAndModifyByWaitingCountIfEqual, updateOnce, ReadFromUser]
  split_ifs <;> simp

/-- C8: every arbiter operation preserves the invariant that each
tree-resident thread has its waiting flag set; woken threads leave with
the binding cleared, the waits enroll the thread with the flag set and
the stored arbiter key equal to the waited-on address, and the post-wake
removal clears the binding. -/
theorem C8_flag_binding_consistency (mem : Nat → Int) (tree : List KThread) (cur : KThread)
    (addr : Nat) (value count timeout : Int) (decrement : Bool)
    (hinv : TreeInv tree) :
    (TreeInv (Signal mem tree addr count).tree ∧
       ∀ t ∈ (Signal mem tree addr count).woken, t.waitingForArbiter = false) ∧
    (TreeInv (SignalAndIncrementIfEqual mem tree addr value count).tree ∧
       ∀ t ∈ (SignalAndIncrementIfEqual mem tree addr value count).woken,
         t.waitingForArbiter = false) ∧
    (TreeInv (SignalAndModifyByWaitingCountIfEqual mem tree addr value count).tree ∧
       ∀ t ∈ (SignalAndModifyByWaitingCountIfEqual mem tree addr value count).woken,
         t.waitingForArbiter = false) ∧
    (TreeInv (WaitIfLessThan mem tree cur addr value decrement timeout).tree ∧
       ((WaitIfLessThan mem tree cur addr value decrement timeout).outcome = .enrolled →
          (WaitIfLessThan mem tree cur addr value decrement
              timeout).thread.waitingForArbiter = true ∧
          (WaitIfLessThan mem tree cur addr value decrement timeout).thread.arbKey
              = addr)) ∧
    (TreeInv (WaitIfEqual mem tree cur addr value timeout).tree ∧
       ((WaitIfEqual mem tree cur addr value timeout).outcome = .enrolled →
          (WaitIfEqual mem tree cur addr value timeout).thread.waitingForArbiter = true ∧
          (WaitIfEqual mem tree cur addr value timeout).thread.arbKey = addr)) ∧
    (TreeInv (removeFromArbiter tree cur).1 ∧
       (removeFromArbiter tree cur).2.waitingForArbiter = false) := by
  refine ⟨?_, ?_, ?_, ?_, ?_, ?_⟩
  · exact wake_structure_inv tree addr count hinv
  · rcases SignalAndIncrement_tree_woken mem tree addr value count with ⟨h1, h2⟩ | ⟨h1, h2⟩
    · rw [h1, h2]
      exact ⟨hinv, by simp⟩
    · rw [h1, h2]
      exact wake_structure_inv tree addr count hinv
  · rcases SignalAndModify_tree_woken mem tree addr value count with ⟨h1, h2⟩ | ⟨h1, h2⟩
    · rw [h1, h2]
      exact ⟨hinv, by simp⟩
    · rw [h1, h2]
      exact wake_structure_inv tree addr count hinv
  · constructor
    · simp only [WaitIfLessThan]
      split_ifs
      all_goals try exact hinv
      all_goals
        intro t ht
        rcases mem_insertThread _ tree t ht with h | h
        · subst h; rfl
        · exact hinv t h
    · simp only [WaitIfLessThan]
      split_ifs <;> simp
  · constructor
    · simp only [WaitIfEqual]
      split_ifs
      all_goals try exact hinv
      all_goals
        intro t ht
        rcases mem_insertThread _ tree t ht with h | h
        · subst h; rfl
        · exact hinv t h
    · simp only [WaitIfEqual]
      split_ifs <;> simp
  · constructor
    · by_cases hw : cur.waitingForArbiter = true
      · intro t ht
        simp only [removeFromArbiter, if_pos hw] at ht
        exact hinv t ((List.eraseP_sublist _).subset ht)
      · simp only [removeFromArbiter, if_neg hw]
        exact hinv
    · by_cases hw : cur.waitingForArbiter = true
      · simp [removeFromArbiter, hw]
      · simp only [removeFromArbiter, if_neg hw]
        simpa using hw

theorem C8_flag_binding_consistency_witness :
    TreeInv [wThread 1 0 8192] ∧
    TreeInv (Signal (fun _ => 0) [wThread 1 0 8192] 8192 1).tree ∧
    (∀ t ∈ (Signal (fun _ => 0) [wThread 1 0 8192] 8192 1).woken,
       t.waitingForArbiter = false) ∧
    (removeFromArbiter [wThread 1 0 8192] (wThread 1 0 8192)).2.waitingForArbiter
        = false := by
  have h := C8_flag_binding_consistency (fun _ => 0) [wThread 1 0 8192] (wThread 1 0 8192)
    8192 0 1 0 true (by decide)
  exact ⟨by decide, h.1.1, h.1.2, h.2.2.2.2.2.2⟩

theorem DecrementIfLessThan_ok (value : Int) :
    ∀ (steps : List MonitorStep) (r : AtomicResult),
      DecrementIfLessThan value steps = some r → r.ok = true := by
  intro steps
  induction steps with
  | nil =>
    intro r hr
    simp [DecrementIfLessThan] at hr
  | cons s rest ih =>
    intro r hr
    simp only [DecrementIfLessThan] at hr
    by_cases hv : s.readValue < value
    · rw [if_pos hv] at hr
      by_cases hok : s.storeOk = true
      · rw [if_pos hok] at hr
        rw [← Option.some.inj hr]
      · rw [if_neg hok] at hr
        cases hrec : DecrementIfLessThan value rest with
        | none => rw [hrec] at hr; simp at hr
        | some r2 =>
          rw [hrec] at hr
          rw [← Option.some.inj hr]
    · rw [if_neg hv] at hr
      rw [← Option.some.inj hr]

theorem UpdateIfEqual_ok (value new_value : Int) :
    ∀ (steps : List MonitorStep) (r : AtomicResult),
      UpdateIfEqual value new_value steps = some r → r.ok = true := by
  intro steps
  induction steps with
  | nil =>
    intro r hr
    simp [UpdateIfEqual] at hr
  | cons s rest ih =>
    intro r hr
    simp only [UpdateIfEqual] at hr
    by_cases hv : s.readValue = value
    · rw [if_pos hv] at hr
      by_cases hok : s.storeOk = true
      · rw [if_pos hok] at hr
        rw [← Option.some.inj hr]
      · rw [if_neg hok] at hr
        cases hrec : UpdateIfEqual value new_value rest with
        | none => rw [hrec] at hr; simp at hr
        | some r2 =>
          rw [hrec] at hr
          rw [← Option.some.inj hr]
    · rw [if_neg hv] at hr
      rw [← Option.some.inj hr]

/-- C9: the user-memory helpers unconditionally report success
(`ReadFromUser` plainly, the two monitored helpers whenever their retry
loop resolves), so every `InvalidCurrentMemory` branch of the five
public operations is unreachable: no operation ever surfaces
`InvalidCurrentMemory`. -/
theorem C9_never_invalid_memory (mem : Nat → Int) (tree : List KThread) (cur : KThread)
    (addr : Nat) (value new_value count timeout : Int) (decrement : Bool)
    (steps : List MonitorStep) :
    (ReadFromUser mem addr).ok = true ∧
    (∀ r, DecrementIfLessThan value steps = some r → r.ok = true) ∧
    (∀ r, UpdateIfEqual value new_value steps = some r → r.ok = true) ∧
    (Signal mem tree addr count).res ≠ .InvalidCurrentMemory ∧
    (SignalAndIncrementIfEqual mem tree addr value count).res ≠ .InvalidCurrentMemory ∧
    (SignalAndModifyByWaitingCountIfEqual mem tree addr value count).res
        ≠ .InvalidCurrentMemory ∧
    (∀ rc, (WaitIfLessThan mem tree cur addr value decrement timeout).outcome
        = .early rc → rc ≠ .InvalidCurrentMemory) ∧
    (∀ rc, (WaitIfEqual mem tree cur addr value timeout).outcome = .early rc →
       rc ≠ .InvalidCurrentMemory) := by
  refine ⟨rfl, fun r => DecrementIfLessThan_ok value steps r,
    fun r => UpdateIfEqual_ok value new_value steps r, ?_, ?_, ?_, ?_, ?_⟩
  · simp [Signal]
  · simp only [SignalAndIncrementIfEqual, updateOnce]
    split_ifs <;>
      first
        | exact fun h => ResultCode.noConfusion h
        | exact False.elim (by assumption)
  · simp only [SignalAndModifyByWaitingCountIfEqual, updateOnce, ReadFromUser]
    split_ifs <;>
      first
        | exact fun h => ResultCode.noConfusion h
        | exact False.elim (by assumption)
  · intro rc
    simp only [WaitIfLessThan, ReadFromUser, decrementOnce, commitStore]
    split_ifs <;> intro h <;> cases rc <;> simp_all
  · intro rc
    simp only [WaitIfEqual, ReadFromUser, commitStore]
    split_ifs <;> intro h <;> cases rc <;> simp_all

theorem C9_never_invalid_memory_witness :
    (ReadFromUser (fun _ => 0) 0).ok = true ∧
    (Signal (fun _ => 0) [] 0 1).res ≠ .InvalidCurrentMemory ∧
    (⟨true, 9, none⟩ : AtomicResult).ok = true := by
  have h := C9_never_invalid_memory (fun _ => 0) [] (wThread 7 0 0) 0 5 6 1 0 true
    [⟨9, true⟩]
  exact ⟨h.1, h.2.2.2.1, h.2.1 ⟨true, 9, none⟩ (by decide)⟩

end ArbiterModel

